import Mathlib

/-!
Shallow embedding of the stream-reassembly engine in
`litellm/litellm_core_utils/streaming_chunk_builder_utils.py`
(class `ChunkProcessor` and the helper `concatenate_base64_list`),
together with theorems settling the specification claims about it.

Conventions of the embedding:
* Python dictionary fields that may be absent are modelled as `Option`;
  a field whose stored value may itself be Python `None` is modelled as
  `Option (Option _)` (outer layer: key present; inner layer: non-null value).
* Python truthiness of strings is `strTruthy` (present and non-empty);
  truthiness of numeric values is an explicit `≠ 0` / `> 0` test matching
  the source's guards.
* Code that can raise is modelled with `Option` / `Except`.
-/

namespace LitellmStream

/-- Python truthiness of an optional string: present and non-empty. -/
def strTruthy : Option String → Bool
  | none => false
  | some s => decide (s ≠ "")

/-- `function` sub-delta of a streamed tool call
(`tool_call.function.name` / `tool_call.function.arguments`). -/
structure ToolCallFunctionDelta where
  name : Option String := none
  arguments : Option String := none
deriving DecidableEq, Repr

/-- One streamed tool-call delta entry.  `hasFunction` models the Python
`hasattr(tool_call, "function")` probe; `index` models
`getattr(tool_call, "index", 0)`. -/
structure ToolCallDelta where
  hasFunction : Bool := true
  index : Nat := 0
  id : Option String := none
  type : Option String := none
  function : ToolCallFunctionDelta := {}
deriving DecidableEq, Repr

/-- One entry of a `thinking_blocks` list; every field is read with
`dict.get(..., None)` in the source, hence all fields are optional. -/
structure ThinkingBlockDelta where
  type : Option String := none
  thinking : Option String := none
  signature : Option String := none
  data : Option String := none
deriving DecidableEq, Repr

/-- The sparse `delta` payload of one streamed choice. -/
structure DeltaPart where
  role : Option String := none
  content : Option (Option String) := none
  reasoning_content : Option (Option String) := none
  tool_calls : List (Option ToolCallDelta) := []
  thinking_blocks : Option (List ThinkingBlockDelta) := none
deriving DecidableEq, Repr

/-- One streamed choice: its delta and an optional `finish_reason` field
whose stored value may itself be null. -/
structure ChoiceDelta where
  delta : DeltaPart := {}
  finish_reason : Option (Option String) := none
deriving DecidableEq, Repr

/-- Nested `completion_tokens_details` of a usage record. -/
structure CompletionTokensDetails where
  reasoning_tokens : Option Int := none
deriving DecidableEq, Repr

/-- Nested `prompt_tokens_details` of a usage record. -/
structure PromptTokensDetails where
  web_search_requests : Option Int := none
deriving DecidableEq, Repr

/-- A usage record as carried by a chunk.  Counter fields are
`Option (Option Int)`: key present, and, if so, a possibly-null value. -/
structure UsageIn where
  prompt_tokens : Option (Option Int) := none
  completion_tokens : Option (Option Int) := none
  total_tokens : Option (Option Int) := none
  cache_creation_input_tokens : Option (Option Int) := none
  cache_read_input_tokens : Option (Option Int) := none
  completion_tokens_details : Option CompletionTokensDetails := none
  prompt_tokens_details : Option PromptTokensDetails := none
deriving DecidableEq, Repr

/-- One streamed chunk.  `hidden_created_at` and `hidden_usage` model the
`_hidden_params` side-channel entries `created_at` and `usage`. -/
structure Chunk where
  id : String := ""
  object : String := ""
  created : Nat := 0
  model : String := ""
  system_fingerprint : Option String := none
  choices : List ChoiceDelta := []
  usage : Option (Option UsageIn) := none
  hidden_created_at : Option Nat := none
  hidden_usage : Option UsageIn := none
deriving DecidableEq, Repr

/-! ## Chunk orderer (`ChunkProcessor._sort_chunks`) -/

/-- Truthiness of the `created_at` ordering hint (`.get("created_at")`):
present and non-zero. -/
def hintTruthy : Option Nat → Bool
  | none => false
  | some n => decide (n ≠ 0)

/-- Comparison used by `sorted(chunks, key=lambda x:
x._hidden_params.get("created_at", float("inf")))`: a missing hint sorts
as `+∞`. -/
def createdAtKeyLE (a b : Chunk) : Bool :=
  match a.hidden_created_at, b.hidden_created_at with
  | _, none => true
  | none, some _ => false
  | some x, some y => decide (x ≤ y)

/-- `ChunkProcessor._sort_chunks`: if the first chunk's `created_at`
hint is truthy, stably sort all chunks by hint (missing hints sort
last); otherwise return the list unchanged. -/
def sort_chunks (chunks : List Chunk) : List Chunk :=
  match chunks with
  | [] => []
  | c :: rest =>
    if hintTruthy c.hidden_created_at then
      (c :: rest).mergeSort createdAtKeyLE
    else c :: rest

/-! ## Generic content merger (`ChunkProcessor.get_combined_content`) -/

/-- `ChunkProcessor.get_combined_content`: over every chunk and every
choice, read `delta.get(delta_key, "")` (an absent key contributes the
empty string), skip explicit nulls, and concatenate.  The selector `key`
plays the role of `delta_key`. -/
def get_combined_content (key : DeltaPart → Option (Option String))
    (chunks : List Chunk) : String :=
  String.join (chunks.flatMap fun c =>
    c.choices.filterMap fun ch => (key ch.delta).getD (some ""))

/-- `ChunkProcessor.get_combined_reasoning_content`. -/
def get_combined_reasoning_content (chunks : List Chunk) : String :=
  get_combined_content (fun d => d.reasoning_content) chunks

/-! ## Tool-call merger (`ChunkProcessor.get_combined_tool_content`) -/

/-- The per-index accumulator stored in `tool_call_map`. -/
structure ToolAcc where
  id : Option String := none
  name : Option String := none
  type : Option String := none
  arguments : List String := []
deriving DecidableEq, Repr

/-- Dictionary lookup on the insertion-ordered accumulator map. -/
def lookupAcc : List (Nat × ToolAcc) → Nat → Option ToolAcc
  | [], _ => none
  | (k, v) :: rest, i => if k = i then some v else lookupAcc rest i

/-- Dictionary write on the insertion-ordered accumulator map: update in
place if the key exists, else append (Python dict insertion order). -/
def setAcc : List (Nat × ToolAcc) → Nat → ToolAcc → List (Nat × ToolAcc)
  | [], i, v => [(i, v)]
  | (k, w) :: rest, i, v =>
    if k = i then (i, v) :: rest else (k, w) :: setAcc rest i v

/-- The argument fragment a single tool-call delta contributes (appended
only when `tool_call.function.arguments` is truthy). -/
def argFragment (t : ToolCallDelta) : List String :=
  match t.function.arguments with
  | some s => if s = "" then [] else [s]
  | none => []

/-- Effect of one relevant tool-call delta on its accumulator: the body
of the `for tool_call in tool_calls` loop after the accumulator for
`index` exists — `id`, `type` and `name` are overwritten when the new
value is truthy, and a truthy argument fragment is appended. -/
def applyToolEntry (a : ToolAcc) (t : ToolCallDelta) : ToolAcc :=
  { id := if strTruthy t.id then t.id else a.id,
    type := if strTruthy t.type then t.type else a.type,
    name := if strTruthy t.function.name then t.function.name else a.name,
    arguments := a.arguments ++ argFragment t }

/-- One iteration of the tool-call scan: a falsy entry or one without a
`function` attribute is skipped entirely; otherwise the accumulator at
the entry's index (freshly created when absent) is updated. -/
def toolStep (m : List (Nat × ToolAcc)) (tc : Option ToolCallDelta) :
    List (Nat × ToolAcc) :=
  match tc with
  | none => m
  | some t =>
    if t.hasFunction then
      setAcc m t.index (applyToolEntry ((lookupAcc m t.index).getD {}) t)
    else m

/-- All tool-call delta entries of a chunk sequence, in scan order
(chunks, then choices, then `delta.get("tool_calls", [])`). -/
def allToolCallEntries (chunks : List Chunk) : List (Option ToolCallDelta) :=
  chunks.flatMap fun c => c.choices.flatMap fun ch => ch.delta.tool_calls

/-- The `function` payload of an emitted tool call. -/
structure FunctionOut where
  arguments : String
  name : String
deriving DecidableEq, Repr

/-- An emitted tool call (`ChatCompletionMessageToolCall`). -/
structure ChatCompletionMessageToolCall where
  id : String
  function : FunctionOut
  type : String
deriving DecidableEq, Repr

/-- Emission of one accumulator: a call is produced only when both `id`
and `name` are truthy; joined arguments default to `"{}"`; `type`
defaults to `"function"`. -/
def emitAcc (a : ToolAcc) : Option ChatCompletionMessageToolCall :=
  if strTruthy a.id && strTruthy a.name then
    some { id := a.id.getD "",
           function :=
             { arguments :=
                 if String.join a.arguments = "" then "\x7b\x7d"
                 else String.join a.arguments,
               name := a.name.getD "" },
           type := if strTruthy a.type then a.type.getD "" else "function" }
  else none

/-- Boolean `≤` on `Nat`, the key order of `sorted(tool_call_map.keys())`. -/
def natLE (a b : Nat) : Bool := decide (a ≤ b)

/-- Scan all tool-call delta entries into the accumulator map, then emit
accumulators in ascending key order. -/
def toolContentOfEntries (entries : List (Option ToolCallDelta)) :
    List ChatCompletionMessageToolCall :=
  let m := entries.foldl toolStep []
  ((m.map Prod.fst).mergeSort natLE).filterMap fun i =>
    (lookupAcc m i).bind emitAcc

/-- `ChunkProcessor.get_combined_tool_content`. -/
def get_combined_tool_content (chunks : List Chunk) :
    List ChatCompletionMessageToolCall :=
  toolContentOfEntries (allToolCallEntries chunks)

/-! Claim-side description of the tool-call merger, written from the
claim's words: the relevant entries, grouped by distinct index in
ascending order; per index, a call is emitted exactly when a truthy `id`
and a truthy `name` were observed, carrying the in-order concatenation
of the observed argument fragments (default `"{}"`) and the last
observed type (default `"function"`). -/

/-- Entries that take part in merging: non-falsy and with a `function`
attribute. -/
def relevantToolEntries (entries : List (Option ToolCallDelta)) :
    List ToolCallDelta :=
  (entries.filterMap id).filter fun t => t.hasFunction

/-- The last truthy value of field `f` observed across a list of
entries, if any. -/
def lastTruthy (f : ToolCallDelta → Option String) :
    List ToolCallDelta → Option String
  | [] => none
  | t :: rest =>
    match lastTruthy f rest with
    | some v => some v
    | none => if strTruthy (f t) then f t else none

/-- All truthy argument fragments observed, in order. -/
def truthyArguments : List ToolCallDelta → List String
  | [] => []
  | t :: rest => argFragment t ++ truthyArguments rest

/-- The tool call the claim predicts for index `i`, given the relevant
entries: present iff an id and a name were observed for `i`. -/
def specToolCallAt (entries : List ToolCallDelta) (i : Nat) :
    Option ChatCompletionMessageToolCall :=
  let es := entries.filter fun t => decide (t.index = i)
  match lastTruthy (fun t => t.id) es,
        lastTruthy (fun t => t.function.name) es with
  | some idv, some namev =>
    some { id := idv,
           function :=
             { arguments :=
                 if String.join (truthyArguments es) = "" then "\x7b\x7d"
                 else String.join (truthyArguments es),
               name := namev },
           type := (lastTruthy (fun t => t.type) es).getD "function" }
  | _, _ => none

/-- The claim's description of the whole merger: one call per distinct
observed index having both id and name, ascending by index. -/
def specToolContent (entries : List (Option ToolCallDelta)) :
    List ChatCompletionMessageToolCall :=
  (((relevantToolEntries entries).map (fun t => t.index)).dedup.mergeSort
    natLE).filterMap (specToolCallAt (relevantToolEntries entries))

/-! ## Thinking-block merger (`ChunkProcessor.get_combined_thinking_content`) -/

/-- An emitted thinking block: the `thinking` variant or the
`redacted_thinking` variant. -/
inductive ThinkingOut where
  | thinking (thinking : String) (signature : String)
  | redacted_thinking (data : String)
deriving DecidableEq, Repr

/-- The loop state of the thinking-block scan:
`combined_thinking_text`, `data`, `signature` and the running `type`
tag (initially `"thinking"`). -/
structure ThinkingState where
  combined_thinking_text : Option String := none
  data : Option String := none
  signature : Option String := none
  type : String := "thinking"
deriving DecidableEq, Repr

/-- Whether a block takes the redacted branch:
`thinking_type and thinking_type == "redacted_thinking"`. -/
def isRedactedBlock (tb : ThinkingBlockDelta) : Bool :=
  decide (tb.type = some "redacted_thinking")

/-- Body of the `for thinking_block in thinking` loop: the redacted
branch remembers the latest `data` (even null) and tags the state
redacted; the other branch tags it thinking, appends a truthy text
fragment, and overwrites `signature` with `get("signature", None)`
(even null). -/
def updateThinking (st : ThinkingState) (tb : ThinkingBlockDelta) :
    ThinkingState :=
  if isRedactedBlock tb then
    { st with type := "redacted_thinking", data := tb.data }
  else
    { st with
      type := "thinking",
      combined_thinking_text :=
        match tb.thinking with
        | some s =>
          if s = "" then st.combined_thinking_text
          else some ((st.combined_thinking_text.getD "") ++ s)
        | none => st.combined_thinking_text,
      signature := tb.signature }

/-- All thinking-block entries of a chunk sequence in scan order; an
absent (or empty, hence falsy) `thinking_blocks` contributes nothing. -/
def allThinkingBlocks (chunks : List Chunk) : List ThinkingBlockDelta :=
  chunks.flatMap fun c =>
    c.choices.flatMap fun ch => ch.delta.thinking_blocks.getD []

/-- `ChunkProcessor.get_combined_thinking_content`: scan all blocks,
then emit a single `thinking` block when the final tag is thinking with
truthy text and signature, else a single `redacted_thinking` block when
the final tag is redacted with truthy data, else nothing. -/
def get_combined_thinking_content (chunks : List Chunk) :
    Option (List ThinkingOut) :=
  let st := (allThinkingBlocks chunks).foldl updateThinking {}
  if strTruthy st.combined_thinking_text ∧ st.type = "thinking" ∧
      strTruthy st.signature then
    some [ThinkingOut.thinking (st.combined_thinking_text.getD "")
      (st.signature.getD "")]
  else if strTruthy st.data ∧ st.type = "redacted_thinking" then
    some [ThinkingOut.redacted_thinking (st.data.getD "")]
  else none

/-- The last block satisfying `p`, if any (spec-side helper). -/
def lastSuch (p : ThinkingBlockDelta → Bool) :
    List ThinkingBlockDelta → Option ThinkingBlockDelta
  | [] => none
  | tb :: rest =>
    match lastSuch p rest with
    | some v => some v
    | none => if p tb then some tb else none

/-- The truthy thinking-text fragments of the non-redacted blocks, in
order (spec-side helper). -/
def thinkingFragments : List ThinkingBlockDelta → List String
  | [] => []
  | tb :: rest =>
    (if isRedactedBlock tb then []
     else match tb.thinking with
       | some s => if s = "" then [] else [s]
       | none => []) ++ thinkingFragments rest

/-- Direct description of the thinking-block merger over the flat block
list: concatenated truthy text of non-redacted blocks, the signature of
the last non-redacted block, the data of the last redacted block, and
the variant tag of the last block decide the emission. -/
def thinkingSpec (bs : List ThinkingBlockDelta) : Option (List ThinkingOut) :=
  let text : Option String :=
    match thinkingFragments bs with
    | [] => none
    | fs => some (String.join fs)
  let sig : Option String :=
    match lastSuch (fun tb => !isRedactedBlock tb) bs with
    | some tb => tb.signature
    | none => none
  let dat : Option String :=
    match lastSuch isRedactedBlock bs with
    | some tb => tb.data
    | none => none
  let tag : String :=
    match lastSuch (fun _ => true) bs with
    | some tb => if isRedactedBlock tb then "redacted_thinking" else "thinking"
    | none => "thinking"
  if strTruthy text ∧ tag = "thinking" ∧ strTruthy sig then
    some [ThinkingOut.thinking (text.getD "") (sig.getD "")]
  else if strTruthy dat ∧ tag = "redacted_thinking" then
    some [ThinkingOut.redacted_thinking (dat.getD "")]
  else none

/-! ## Base response (`ChunkProcessor.build_base_response` and
`ChunkProcessor._get_chunk_id`) -/

/-- `ChunkProcessor._get_chunk_id`: the first truthy chunk id, else `""`. -/
def get_chunk_id : List Chunk → String
  | [] => ""
  | c :: rest => if c.id = "" then get_chunk_id rest else c.id

/-- The `finish_reason` scan of `build_base_response`: starting from
`"stop"`, every chunk whose first choice carries the `finish_reason`
field overwrites the running value with that field's value — even when
the value is null. -/
def foldFinishReason (acc : Option String) (chunks : List Chunk) :
    Option String :=
  chunks.foldl
    (fun fr c =>
      match c.choices.head? with
      | some ch =>
        match ch.finish_reason with
        | some v => v
        | none => fr
      | none => fr)
    acc

/-- The skeleton response assembled by `build_base_response`. -/
structure BaseResponse where
  id : String
  object : String
  created : Nat
  model : String
  system_fingerprint : Option String
  role : String
  finish_reason : Option String
deriving DecidableEq, Repr

/-- `ChunkProcessor.build_base_response`: identity fields come from the
first chunk, `id` from the first truthy id, `finish_reason` from the
scan.  `none` models the Python index/key error on an empty sequence, a
first chunk without choices, or a first delta without a role. -/
def build_base_response : List Chunk → Option BaseResponse
  | [] => none
  | first :: rest =>
    match first.choices.head? with
    | none => none
    | some ch0 =>
      match ch0.delta.role with
      | none => none
      | some role =>
        some { id := get_chunk_id (first :: rest),
               object := first.object,
               created := first.created,
               model := first.model,
               system_fingerprint := first.system_fingerprint,
               role := role,
               finish_reason := foldFinishReason (some "stop") (first :: rest) }

/-- Spec-side helper: the value of the last observed `finish_reason`
field (the value itself may be null), if any chunk's first choice
carries the field. -/
def lastObservedFinish : List Chunk → Option (Option String)
  | [] => none
  | c :: rest =>
    match lastObservedFinish rest with
    | some v => some v
    | none => c.choices.head?.bind fun ch => ch.finish_reason

/-- Claim-side helper for C4, written from the claim's words: the last
non-default (i.e. non-null) `finish_reason` value supplied by any
chunk's first choice, defaulting to `"stop"`. -/
def lastSuppliedFinish : List Chunk → Option String
  | [] => none
  | c :: rest =>
    match lastSuppliedFinish rest with
    | some v => some v
    | none => (c.choices.head?.bind fun ch => ch.finish_reason).getD none

/-- Claim-side finish reason for C4. -/
def c4ClaimFinish (chunks : List Chunk) : String :=
  (lastSuppliedFinish chunks).getD "stop"

/-! ## Usage aggregation (`ChunkProcessor._usage_chunk_calculation_helper`,
`ChunkProcessor._calculate_usage_per_chunk`, `ChunkProcessor.calculate_usage`) -/

/-- The usage record a chunk contributes to the scan: the explicit
`usage` field when the key is present (its value may still be null),
else the `_hidden_params` side-channel usage. -/
def chunkUsage (c : Chunk) : Option UsageIn :=
  match c.usage with
  | some u => u
  | none => c.hidden_usage

/-- Result shape of `_usage_chunk_calculation_helper`. -/
structure UsageChunkDict where
  prompt_tokens : Int
  completion_tokens : Int
  cache_creation_input_tokens : Option Int
  cache_read_input_tokens : Option Int
  completion_tokens_details : Option CompletionTokensDetails
  prompt_tokens_details : Option PromptTokensDetails
deriving DecidableEq, Repr

/-- `ChunkProcessor._usage_chunk_calculation_helper`: token counters
default to `0` when the key is absent or the value is falsy
(`usage_chunk.get(..., 0) or 0`); cache counters keep their possibly
null stored value; the details records pass through. -/
def usage_chunk_calculation_helper (u : UsageIn) : UsageChunkDict :=
  { prompt_tokens := (u.prompt_tokens.getD none).getD 0,
    completion_tokens := (u.completion_tokens.getD none).getD 0,
    cache_creation_input_tokens := u.cache_creation_input_tokens.getD none,
    cache_read_input_tokens := u.cache_read_input_tokens.getD none,
    completion_tokens_details := u.completion_tokens_details,
    prompt_tokens_details := u.prompt_tokens_details }

/-- The running state of the usage scan. -/
structure UsageAcc where
  prompt_tokens : Int := 0
  completion_tokens : Int := 0
  cache_creation_input_tokens : Option Int := none
  cache_read_input_tokens : Option Int := none
  web_search_requests : Option Int := none
  completion_tokens_details : Option CompletionTokensDetails := none
  prompt_tokens_details : Option PromptTokensDetails := none
deriving DecidableEq, Repr

/-- Body of the `for chunk in chunks` loop of
`_calculate_usage_per_chunk`: token counters override on positive;
cache counters override on positive or when the running value is unset;
`completion_tokens_details` overrides when present;
`web_search_requests` is captured from a present
`prompt_tokens_details` carrying one; and `prompt_tokens_details`
itself is overwritten unconditionally (line 452 of the source).  The
source performs these as sequential guarded assignments; since every
guard reads only fields no earlier assignment of the same iteration
touches, they are rendered as one simultaneous record update. -/
def updateUsageAcc (acc : UsageAcc) (c : Chunk) : UsageAcc :=
  match chunkUsage c with
  | none => acc
  | some u =>
    let d := usage_chunk_calculation_helper u
    { prompt_tokens :=
        if d.prompt_tokens > 0 then d.prompt_tokens else acc.prompt_tokens,
      completion_tokens :=
        if d.completion_tokens > 0 then d.completion_tokens
        else acc.completion_tokens,
      cache_creation_input_tokens :=
        match d.cache_creation_input_tokens with
        | some v =>
          if v > 0 ∨ acc.cache_creation_input_tokens = none then some v
          else acc.cache_creation_input_tokens
        | none => acc.cache_creation_input_tokens,
      cache_read_input_tokens :=
        match d.cache_read_input_tokens with
        | some v =>
          if v > 0 ∨ acc.cache_read_input_tokens = none then some v
          else acc.cache_read_input_tokens
        | none => acc.cache_read_input_tokens,
      completion_tokens_details :=
        match d.completion_tokens_details with
        | some v => some v
        | none => acc.completion_tokens_details,
      web_search_requests :=
        match d.prompt_tokens_details with
        | some p =>
          match p.web_search_requests with
          | some w => some w
          | none => acc.web_search_requests
        | none => acc.web_search_requests,
      prompt_tokens_details := d.prompt_tokens_details }

/-- `ChunkProcessor._calculate_usage_per_chunk`. -/
def calculate_usage_per_chunk (chunks : List Chunk) : UsageAcc :=
  chunks.foldl updateUsageAcc {}

/-- The final assembled `Usage` object. -/
structure Usage where
  prompt_tokens : Int := 0
  completion_tokens : Int := 0
  total_tokens : Int := 0
  cache_creation_input_tokens : Option Int := none
  cache_read_input_tokens : Option Int := none
  completion_tokens_details : Option CompletionTokensDetails := none
  prompt_tokens_details : Option PromptTokensDetails := none
deriving DecidableEq, Repr

/-- `ChunkProcessor.calculate_usage`.  The external `token_counter`
collaborator is passed as two oracles: `tokenCounterMessages` for the
prompt-side call over the message history and `tokenCounterText` for
the completion-side call over the assembled text; `none` models the
call raising.  The prompt-side call sits in a `try/except` substituting
`0`; the completion-side call is unguarded, so its failure propagates
(`Except.error`).  Both calls happen only when the aggregated counter
is falsy (`aggregated or token_counter(...)`). -/
def calculate_usage (chunks : List Chunk) (tokenCounterMessages : Option Int)
    (tokenCounterText : Option Int) (reasoning_tokens : Option Int) :
    Except Unit Usage :=
  let per := calculate_usage_per_chunk chunks
  match
    (if per.completion_tokens ≠ 0 then some per.completion_tokens
     else tokenCounterText) with
  | none => Except.error ()
  | some completion =>
    let prompt : Int :=
      if per.prompt_tokens ≠ 0 then per.prompt_tokens
      else
        match tokenCounterMessages with
        | some n => n
        | none => 0
    let ctd0 := per.completion_tokens_details
    let ctd :=
      match reasoning_tokens with
      | none => ctd0
      | some rt =>
        match ctd0 with
        | none => some { reasoning_tokens := some rt }
        | some dtl =>
          if dtl.reasoning_tokens = none then
            some { dtl with reasoning_tokens := some rt }
          else some dtl
    let ptd0 := per.prompt_tokens_details
    let ptd :=
      match per.web_search_requests with
      | none => ptd0
      | some w =>
        match ptd0 with
        | none => some { web_search_requests := some w }
        | some p => some { p with web_search_requests := some w }
    Except.ok
      { prompt_tokens := prompt,
        completion_tokens := completion,
        total_tokens := prompt + completion,
        cache_creation_input_tokens := per.cache_creation_input_tokens,
        cache_read_input_tokens := per.cache_read_input_tokens,
        completion_tokens_details := ctd,
        prompt_tokens_details := ptd }

/-! ## Base64 concatenation (`concatenate_base64_list`)

The Python function decodes each fragment with `base64.b64decode`,
joins the raw bytes, and re-encodes once with `base64.b64encode`.  The
standard base64 alphabet with `=` padding is embedded below; `decode`
returns `none` where the Python library call would raise. -/

/-- Value of one character of the standard base64 alphabet. -/
def b64Val (c : Char) : Option Nat :=
  if 65 ≤ c.toNat ∧ c.toNat ≤ 90 then some (c.toNat - 65)
  else if 97 ≤ c.toNat ∧ c.toNat ≤ 122 then some (c.toNat - 97 + 26)
  else if 48 ≤ c.toNat ∧ c.toNat ≤ 57 then some (c.toNat - 48 + 52)
  else if c = '+' then some 62
  else if c = '/' then some 63
  else none

/-- Character of the standard base64 alphabet for a sextet. -/
def b64Char (n : Nat) : Char :=
  if n < 26 then Char.ofNat (65 + n)
  else if n < 52 then Char.ofNat (97 + (n - 26))
  else if n < 62 then Char.ofNat (48 + (n - 52))
  else if n = 62 then '+'
  else '/'

/-- `base64.b64encode` over a byte list, producing the character list
of the encoded string (3 bytes → 4 chars, with `=` padding). -/
def b64EncodeBytes : List Nat → List Char
  | [] => []
  | [b1] => [b64Char (b1 / 4), b64Char (b1 % 4 * 16), '=', '=']
  | [b1, b2] =>
    [b64Char (b1 / 4), b64Char (b1 % 4 * 16 + b2 / 16),
     b64Char (b2 % 16 * 4), '=']
  | b1 :: b2 :: b3 :: rest =>
    b64Char (b1 / 4) :: b64Char (b1 % 4 * 16 + b2 / 16) ::
    b64Char (b2 % 16 * 4 + b3 / 64) :: b64Char (b3 % 64) ::
    b64EncodeBytes rest

/-- `base64.b64decode` over the character list of a base64 string:
groups of four characters, `=` padding only at the end; `none` models
the `binascii.Error` raised on malformed input. -/
def b64DecodeChars : List Char → Option (List Nat)
  | [] => some []
  | c1 :: c2 :: c3 :: c4 :: rest =>
    match b64Val c1, b64Val c2 with
    | some s1, some s2 =>
      if c3 = '=' then
        if c4 = '=' ∧ rest = [] then some [s1 * 4 + s2 / 16] else none
      else
        match b64Val c3 with
        | some s3 =>
          if c4 = '=' then
            if rest = [] then some [s1 * 4 + s2 / 16, s2 % 16 * 16 + s3 / 4]
            else none
          else
            match b64Val c4, b64DecodeChars rest with
            | some s4, some tail =>
              some ((s1 * 4 + s2 / 16) :: (s2 % 16 * 16 + s3 / 4) ::
                (s3 % 4 * 64 + s4) :: tail)
            | _, _ => none
        | none => none
    | _, _ => none
  | _ => none

/-- Decode of a base64 string to bytes. -/
def b64decode (s : String) : Option (List Nat) :=
  b64DecodeChars s.data

/-- Encode of bytes to a base64 string. -/
def b64encode (bs : List Nat) : String :=
  String.mk (b64EncodeBytes bs)

/-- `concatenate_base64_list`: decode every fragment, join the bytes,
re-encode once.  `none` models the library raising on an invalid
fragment. -/
def concatenate_base64_list (base64_strings : List String) : Option String :=
  (base64_strings.mapM b64decode).map fun bss => b64encode bss.flatten

/-! ## General helper lemmas -/

theorem join_foldl (l : List String) (init : String) :
    l.foldl (fun r s => r ++ s) init = init ++ String.join l := by
  induction l generalizing init with
  | nil => simp [String.join]
  | cons a l ih =>
    have h2 : String.join (a :: l) = a ++ String.join l := by
      show (a :: l).foldl (fun r s => r ++ s) "" = _
      rw [List.foldl_cons, ih ("" ++ a), String.empty_append]
    rw [List.foldl_cons, ih (init ++ a), h2, String.append_assoc]

theorem join_append (a b : List String) :
    String.join (a ++ b) = String.join a ++ String.join b := by
  show (a ++ b).foldl (fun r s => r ++ s) "" = _
  rw [List.foldl_append]
  rw [join_foldl]
  rfl

/-! ## C9: content merge is a homomorphism over concatenation -/

/-- C9: the content merge distributes over splitting the chunk sequence
into two contiguous sub-sequences: merging the whole sequence equals
the string concatenation of merging the parts (null deltas contribute
nothing), for any delta key. -/
theorem c9_content_merge_homomorphism
    (key : DeltaPart → Option (Option String)) (a b : List Chunk) :
    get_combined_content key (a ++ b) =
      get_combined_content key a ++ get_combined_content key b := by
  unfold get_combined_content
  rw [List.flatMap_append, join_append]

/-! ## C10: falsy or function-less tool-call entries are ignored -/

/-- Whether a tool-call delta entry takes part in merging: truthy and
carrying a `function` attribute. -/
def relevantEntry : Option ToolCallDelta → Bool
  | none => false
  | some t => t.hasFunction

theorem foldl_toolStep_filter (entries : List (Option ToolCallDelta)) :
    ∀ m, (entries.filter relevantEntry).foldl toolStep m =
      entries.foldl toolStep m := by
  induction entries with
  | nil => intro m; rfl
  | cons tc rest ih =>
    intro m
    match tc with
    | none => simpa [relevantEntry, toolStep] using ih m
    | some t =>
      by_cases h : t.hasFunction
      · simp [relevantEntry, h, List.filter_cons, List.foldl_cons, ih]
      · simp [relevantEntry, h, List.filter_cons, List.foldl_cons, ih, toolStep]

/-- C10: a tool-call delta entry that is falsy or lacks a `function`
attribute is ignored entirely by the tool-call merger — removing all
such entries from the scanned entry list leaves the emitted tool calls
unchanged, for every chunk sequence. -/
theorem c10_irrelevant_tool_entries_ignored (chunks : List Chunk) :
    get_combined_tool_content chunks =
      toolContentOfEntries ((allToolCallEntries chunks).filter relevantEntry) := by
  unfold get_combined_tool_content toolContentOfEntries
  rw [foldl_toolStep_filter]

/-! ## C6: total tokens is always the recomputed sum -/

/-- C6: in every `Usage` assembled by `calculate_usage`, `total_tokens`
equals `prompt_tokens + completion_tokens`, whatever the chunks (and
any upstream `total_tokens` they carry) and whatever the token-counter
oracles return. -/
theorem c6_total_tokens_recomputed (chunks : List Chunk)
    (tm tt rt : Option Int) (u : Usage)
    (h : calculate_usage chunks tm tt rt = Except.ok u) :
    u.total_tokens = u.prompt_tokens + u.completion_tokens := by
  by_cases hc : (calculate_usage_per_chunk chunks).completion_tokens = 0
  · cases tt with
    | none => simp [calculate_usage, hc] at h
    | some n =>
      simp only [calculate_usage, hc, ne_eq, not_true_eq_false, if_false,
        Except.ok.injEq] at h
      subst h
      rfl
  · simp only [calculate_usage, hc, ne_eq, not_false_eq_true, if_true,
      Except.ok.injEq] at h
    subst h
    rfl

/-- Witness for C6 at a concrete input. -/
theorem c6_total_tokens_recomputed_witness :
    (Usage.mk 3 20 23 none none none none).total_tokens =
      (Usage.mk 3 20 23 none none none none).prompt_tokens +
        (Usage.mk 3 20 23 none none none none).completion_tokens :=
  c6_total_tokens_recomputed [] (some 3) (some 20) none
    (Usage.mk 3 20 23 none none none none) rfl

/-! ## C7: token-counter failure policy -/

/-- C7: when the aggregated prompt count is falsy (so the prompt-token
fallback is taken) and the prompt-side token counter raises,
`calculate_usage` does not abort: assembly fails exactly when the
completion-side fallback is also taken and fails, and every successful
assembly carries `prompt_tokens = 0`.  A completion-side token-counter
failure, by contrast, always propagates when its fallback is taken. -/
theorem c7_token_counter_failure_policy :
    (∀ (chunks : List Chunk) (tt rt : Option Int),
      (calculate_usage_per_chunk chunks).prompt_tokens = 0 →
        (∀ u, calculate_usage chunks none tt rt = Except.ok u →
          u.prompt_tokens = 0) ∧
        (calculate_usage chunks none tt rt = Except.error () ↔
          (calculate_usage_per_chunk chunks).completion_tokens = 0 ∧
            tt = none)) ∧
    (∀ (chunks : List Chunk) (tm rt : Option Int),
      (calculate_usage_per_chunk chunks).completion_tokens = 0 →
        calculate_usage chunks tm none rt = Except.error ()) := by
  constructor
  · intro chunks tt rt hp
    constructor
    · intro u h
      by_cases hc : (calculate_usage_per_chunk chunks).completion_tokens = 0
      · cases tt with
        | none => simp [calculate_usage, hc] at h
        | some n =>
          simp only [calculate_usage, hc, ne_eq, not_true_eq_false, if_false,
            Except.ok.injEq] at h
          subst h
          simp [hp]
      · simp only [calculate_usage, hc, ne_eq, not_false_eq_true, if_true,
          Except.ok.injEq] at h
        subst h
        simp [hp]
    · by_cases hc : (calculate_usage_per_chunk chunks).completion_tokens = 0
      · cases tt with
        | none => simp [calculate_usage, hc]
        | some n => simp [calculate_usage, hc]
      · simp [calculate_usage, hc]
  · intro chunks tm rt hc
    simp [calculate_usage, hc]

/-- Witness for C7 at concrete inputs: on an empty chunk sequence the
prompt-side counter raising still yields a successful assembly with
zero prompt tokens, while a completion-side raise yields an error. -/
theorem c7_token_counter_failure_policy_witness :
    (∀ u, calculate_usage [] none (some 20) none = Except.ok u →
      u.prompt_tokens = 0) ∧
    calculate_usage [] (some 3) none none = Except.error () :=
  ⟨(c7_token_counter_failure_policy.1 [] (some 20) none rfl).1,
    c7_token_counter_failure_policy.2 [] (some 3) none rfl⟩

/-! ## C2: usage-scan override semantics

The claim is right for the token counters and the cache counters, but
wrong for `prompt_tokens_details`: line 452 of the source assigns
`prompt_tokens_details = usage_chunk_dict["prompt_tokens_details"]`
unconditionally for every chunk carrying a usage record, so a later
usage record without the field clobbers an earlier value with `None`
instead of leaving the running value unchanged. -/

/-- A chunk whose usage record carries `prompt_tokens_details`. -/
def exC2A : Chunk :=
  { usage := some (some
      { prompt_tokens := some (some 3),
        prompt_tokens_details := some { web_search_requests := some 7 } }) }

/-- A later chunk whose usage record lacks `prompt_tokens_details`. -/
def exC2B : Chunk :=
  { usage := some (some { prompt_tokens := some (some 5) }) }

/-- C2 is false as stated: after `exC2A` the running
`prompt_tokens_details` is set, and the claim says a later usage record
without the field leaves it unchanged, yet scanning `exC2B` afterwards
resets it to `none`. -/
theorem c2_usage_override_counterexample :
    (calculate_usage_per_chunk [exC2A]).prompt_tokens_details =
      some { web_search_requests := some 7 } ∧
    (calculate_usage_per_chunk [exC2A, exC2B]).prompt_tokens_details = none ∧
    (none : Option PromptTokensDetails) ≠
      some { web_search_requests := some 7 } := by
  refine ⟨rfl, rfl, ?_⟩
  decide

/-- C2 (amended): during the usage scan, a chunk without a usage record
leaves the running state unchanged; for a chunk with one,
`prompt_tokens` and `completion_tokens` are replaced only by a present,
strictly positive value; `cache_creation_input_tokens` and
`cache_read_input_tokens` are replaced by a present value that is
positive or when the running value is still unset;
`completion_tokens_details` is replaced whenever present;
`web_search_requests` is captured from a present
`prompt_tokens_details` carrying one; and — amending the claim —
`prompt_tokens_details` itself is unconditionally overwritten with the
chunk's (possibly absent) value. -/
theorem c2_usage_override_amended :
    ∀ (acc : UsageAcc) (c : Chunk),
      (chunkUsage c = none → updateUsageAcc acc c = acc) ∧
      ∀ u, chunkUsage c = some u →
        ((updateUsageAcc acc c).prompt_tokens =
          if (usage_chunk_calculation_helper u).prompt_tokens > 0
          then (usage_chunk_calculation_helper u).prompt_tokens
          else acc.prompt_tokens) ∧
        ((updateUsageAcc acc c).completion_tokens =
          if (usage_chunk_calculation_helper u).completion_tokens > 0
          then (usage_chunk_calculation_helper u).completion_tokens
          else acc.completion_tokens) ∧
        ((updateUsageAcc acc c).cache_creation_input_tokens =
          match (usage_chunk_calculation_helper u).cache_creation_input_tokens with
          | some v =>
            if v > 0 ∨ acc.cache_creation_input_tokens = none then some v
            else acc.cache_creation_input_tokens
          | none => acc.cache_creation_input_tokens) ∧
        ((updateUsageAcc acc c).cache_read_input_tokens =
          match (usage_chunk_calculation_helper u).cache_read_input_tokens with
          | some v =>
            if v > 0 ∨ acc.cache_read_input_tokens = none then some v
            else acc.cache_read_input_tokens
          | none => acc.cache_read_input_tokens) ∧
        ((updateUsageAcc acc c).completion_tokens_details =
          match (usage_chunk_calculation_helper u).completion_tokens_details with
          | some v => some v
          | none => acc.completion_tokens_details) ∧
        ((updateUsageAcc acc c).web_search_requests =
          match (usage_chunk_calculation_helper u).prompt_tokens_details with
          | some p =>
            match p.web_search_requests with
            | some w => some w
            | none => acc.web_search_requests
          | none => acc.web_search_requests) ∧
        ((updateUsageAcc acc c).prompt_tokens_details =
          (usage_chunk_calculation_helper u).prompt_tokens_details) := by
  intro acc c
  constructor
  · intro h
    simp [updateUsageAcc, h]
  · intro u h
    simp [updateUsageAcc, h]

/-- Witness for C2 at concrete inputs: a chunk with no usage record
leaves the state unchanged, and scanning `exC2B` over a running state
with `prompt_tokens = 0` takes its positive value. -/
theorem c2_usage_override_amended_witness :
    updateUsageAcc { prompt_tokens := 11 } { } = { prompt_tokens := 11 } ∧
    (updateUsageAcc { prompt_tokens := 0 } exC2B).prompt_tokens =
      (if (usage_chunk_calculation_helper
            { prompt_tokens := some (some 5) }).prompt_tokens > 0
       then (usage_chunk_calculation_helper
            { prompt_tokens := some (some 5) }).prompt_tokens
       else ({ prompt_tokens := 0 } : UsageAcc).prompt_tokens) :=
  ⟨(c2_usage_override_amended { prompt_tokens := 11 } { }).1 rfl,
    ((c2_usage_override_amended { prompt_tokens := 0 } exC2B).2
      { prompt_tokens := some (some 5) } rfl).1⟩

/-! ## C4: the finish-reason scan

The claim is wrong about which value wins: the scan overwrites the
running value with the `finish_reason` field of every chunk whose first
choice carries the field, **including a null value**, so the result is
the last observed field value (possibly null), not the last non-default
value supplied. -/

theorem foldFinishReason_eq (chunks : List Chunk) :
    ∀ acc, foldFinishReason acc chunks = (lastObservedFinish chunks).getD acc := by
  induction chunks with
  | nil => intro acc; rfl
  | cons c rest ih =>
    intro acc
    have hstep : foldFinishReason acc (c :: rest) =
        foldFinishReason
          (match c.choices.head? with
           | some ch =>
             match ch.finish_reason with
             | some v => v
             | none => acc
           | none => acc) rest := rfl
    rw [hstep, ih]
    cases hl : lastObservedFinish rest with
    | some v => simp [lastObservedFinish, hl]
    | none =>
      cases hh : c.choices.head? with
      | none => simp [lastObservedFinish, hl, hh]
      | some ch =>
        cases hf : ch.finish_reason with
        | none => simp [lastObservedFinish, hl, hh, hf]
        | some v => simp [lastObservedFinish, hl, hh, hf]

/-- The chunk sequence refuting C4: a chunk supplying
`finish_reason = "length"` followed by one whose `finish_reason` field
is present but null. -/
def exC4 : List Chunk :=
  [{ choices := [{ delta := { role := some "assistant" },
                   finish_reason := some (some "length") }] },
   { choices := [{ delta := { }, finish_reason := some none }] }]

/-- C4 is false as stated: on `exC4` the claim predicts the last
non-default supplied value `"length"`, but the assembled base
response's `finish_reason` is null, because the second chunk's present
null field overwrites the running value. -/
theorem c4_finish_reason_counterexample :
    (build_base_response exC4).map (fun r => r.finish_reason) ≠
      some (some (c4ClaimFinish exC4)) ∧
    (build_base_response exC4).map (fun r => r.finish_reason) = some none ∧
    c4ClaimFinish exC4 = "length" := by
  refine ⟨?_, rfl, rfl⟩
  decide

/-- C4 (amended): the `finish_reason` of the assembled base response is
the value of the last observed `finish_reason` field over every chunk's
first choice — a present null value counts as an observation and wins —
and is `"stop"` when no chunk's first choice carries the field. -/
theorem c4_finish_reason_amended (chunks : List Chunk) (r : BaseResponse)
    (h : build_base_response chunks = some r) :
    r.finish_reason = (lastObservedFinish chunks).getD (some "stop") := by
  match chunks with
  | [] => exact Option.noConfusion h
  | first :: rest =>
    simp only [build_base_response] at h
    split at h
    · exact Option.noConfusion h
    · split at h
      · exact Option.noConfusion h
      · cases h
        exact foldFinishReason_eq (first :: rest) (some "stop")

/-- Witness for C4 at a concrete input: a single chunk supplying
`finish_reason = "length"`. -/
theorem c4_finish_reason_amended_witness :
    (BaseResponse.mk "" "" 0 "" none "assistant"
        (some "length")).finish_reason =
      (lastObservedFinish
        [{ choices := [{ delta := { role := some "assistant" },
                         finish_reason := some (some "length") }] }]).getD
        (some "stop") :=
  c4_finish_reason_amended
    [{ choices := [{ delta := { role := some "assistant" },
                     finish_reason := some (some "length") }] }]
    (BaseResponse.mk "" "" 0 "" none "assistant" (some "length")) rfl

/-! ## C5: the thinking-block merger

The claim is wrong on two points.  First, `signature` is overwritten by
**every** non-redacted block with `thinking_block.get("signature",
None)` — including a null — so an earlier non-empty signature does not
win.  Second, the emission branches on the variant tag of the **last**
block scanned, not on whether a redacted variant was ever observed. -/

theorem join_cons (a : String) (l : List String) :
    String.join (a :: l) = a ++ String.join l := by
  show (a :: l).foldl (fun r s => r ++ s) "" = _
  rw [List.foldl_cons, join_foldl, String.empty_append]

theorem thinkFold_type (bs : List ThinkingBlockDelta) :
    ∀ st : ThinkingState,
      (bs.foldl updateThinking st).type =
        match lastSuch (fun _ => true) bs with
        | some tb =>
          if isRedactedBlock tb then "redacted_thinking" else "thinking"
        | none => st.type := by
  induction bs with
  | nil => intro st; rfl
  | cons tb bs ih =>
    intro st
    rw [List.foldl_cons, ih]
    cases hl : lastSuch (fun _ => true) bs with
    | some v => simp [lastSuch, hl]
    | none =>
      by_cases hr : isRedactedBlock tb <;>
        simp [lastSuch, hl, hr, updateThinking]

theorem thinkFold_data (bs : List ThinkingBlockDelta) :
    ∀ st : ThinkingState,
      (bs.foldl updateThinking st).data =
        match lastSuch isRedactedBlock bs with
        | some tb => tb.data
        | none => st.data := by
  induction bs with
  | nil => intro st; rfl
  | cons tb bs ih =>
    intro st
    rw [List.foldl_cons, ih]
    cases hl : lastSuch isRedactedBlock bs with
    | some v => simp [lastSuch, hl]
    | none =>
      by_cases hr : isRedactedBlock tb <;>
        simp [lastSuch, hl, hr, updateThinking]

theorem thinkFold_signature (bs : List ThinkingBlockDelta) :
    ∀ st : ThinkingState,
      (bs.foldl updateThinking st).signature =
        match lastSuch (fun tb => !isRedactedBlock tb) bs with
        | some tb => tb.signature
        | none => st.signature := by
  induction bs with
  | nil => intro st; rfl
  | cons tb bs ih =>
    intro st
    rw [List.foldl_cons, ih]
    cases hl : lastSuch (fun tb => !isRedactedBlock tb) bs with
    | some v => simp [lastSuch, hl]
    | none =>
      by_cases hr : isRedactedBlock tb <;>
        simp [lastSuch, hl, hr, updateThinking]

theorem thinkFold_text (bs : List ThinkingBlockDelta) :
    ∀ st : ThinkingState,
      (bs.foldl updateThinking st).combined_thinking_text =
        match thinkingFragments bs with
        | [] => st.combined_thinking_text
        | fs =>
          some ((st.combined_thinking_text.getD "") ++ String.join fs) := by
  induction bs with
  | nil => intro st; rfl
  | cons tb bs ih =>
    intro st
    rw [List.foldl_cons, ih]
    by_cases hr : isRedactedBlock tb
    · have hfr : thinkingFragments (tb :: bs) = thinkingFragments bs := by
        simp [thinkingFragments, hr]
      have hst : (updateThinking st tb).combined_thinking_text =
          st.combined_thinking_text := by
        simp [updateThinking, hr]
      rw [hfr, hst]
    · cases ht : tb.thinking with
      | none =>
        have hfr : thinkingFragments (tb :: bs) = thinkingFragments bs := by
          simp [thinkingFragments, hr, ht]
        have hst : (updateThinking st tb).combined_thinking_text =
            st.combined_thinking_text := by
          simp [updateThinking, hr, ht]
        rw [hfr, hst]
      | some s =>
        by_cases hs : s = ""
        · have hfr : thinkingFragments (tb :: bs) = thinkingFragments bs := by
            simp [thinkingFragments, hr, ht, hs]
          have hst : (updateThinking st tb).combined_thinking_text =
              st.combined_thinking_text := by
            simp [updateThinking, hr, ht, hs]
          rw [hfr, hst]
        · have hfr : thinkingFragments (tb :: bs) =
              s :: thinkingFragments bs := by
            simp [thinkingFragments, hr, ht, hs]
          have hst : (updateThinking st tb).combined_thinking_text =
              some ((st.combined_thinking_text.getD "") ++ s) := by
            simp [updateThinking, hr, ht, hs]
          rw [hfr, hst]
          cases hf : thinkingFragments bs with
          | nil =>
            simp [join_cons, String.join]
          | cons f fs =>
            simp [join_cons, String.append_assoc]

/-- C5 (amended): the thinking-block merger emits a single `thinking`
block — text the in-order concatenation of the truthy thinking
fragments of non-redacted entries, signature the (possibly null, hence
blocking) `signature` field of the **last** non-redacted entry — exactly
when the last entry scanned is non-redacted and both text and that
signature are truthy; otherwise it emits a single `redacted_thinking`
block with the data of the last redacted entry exactly when the last
entry scanned is redacted and that data is truthy; otherwise it emits
nothing. -/
theorem c5_thinking_merger_amended (chunks : List Chunk) :
    get_combined_thinking_content chunks =
      thinkingSpec (allThinkingBlocks chunks) := by
  simp only [get_combined_thinking_content, thinkingSpec]
  rw [thinkFold_type, thinkFold_data, thinkFold_signature, thinkFold_text]
  cases hf : thinkingFragments (allThinkingBlocks chunks) with
  | nil => rfl
  | cons f fs => simp [hf]

/-- The chunk sequence refuting C5: a thinking fragment `"a"` with
signature `"S"`, then a thinking fragment `"b"` whose block carries no
signature. -/
def exC5 : List Chunk :=
  [{ choices :=
      [{ delta :=
          { thinking_blocks :=
              some [{ thinking := some "a", signature := some "S" }] } }] },
   { choices :=
      [{ delta :=
          { thinking_blocks :=
              some [{ thinking := some "b", signature := none }] } }] }]

/-- C5 is false as stated: no redacted variant is observed and thinking
text accumulated with a non-null signature `"S"`, so the claim predicts
one thinking block `("ab", "S")`; the code emits nothing, because the
second block's absent signature overwrites `"S"` with null. -/
theorem c5_thinking_merger_counterexample :
    get_combined_thinking_content exC5 ≠
      some [ThinkingOut.thinking ("a" ++ "b") "S"] ∧
    get_combined_thinking_content exC5 = none := by
  refine ⟨?_, rfl⟩
  decide

/-! ## C3: the chunk orderer

The claim is wrong about the partial-hint case: the source consults
only the **first** chunk's hint.  When the first chunk carries a truthy
hint but a later chunk does not, the list is still sorted, with missing
hints ordered last (`float("inf")` default key) — not returned
unchanged. -/

theorem createdAtKeyLE_trans :
    ∀ a b c : Chunk, createdAtKeyLE a b → createdAtKeyLE b c →
      createdAtKeyLE a c := by
  intro a b c
  unfold createdAtKeyLE
  cases a.hidden_created_at <;> cases b.hidden_created_at <;>
    cases c.hidden_created_at <;> simp
  all_goals omega

theorem createdAtKeyLE_total :
    ∀ a b : Chunk, createdAtKeyLE a b || createdAtKeyLE b a := by
  intro a b
  unfold createdAtKeyLE
  cases a.hidden_created_at <;> cases b.hidden_created_at <;> simp
  all_goals omega

/-- A stable sort leaves the subsequence of elements tied under the
order (here: sharing one filter-key) in its original order. -/
theorem mergeSort_filter_tied {α : Type} (le : α → α → Bool) (p : α → Bool)
    (l : List α)
    (htrans : ∀ a b c, le a b → le b c → le a c)
    (htotal : ∀ a b, le a b || le b a)
    (tied : ∀ a b, p a → p b → le a b) :
    (l.mergeSort le).filter p = l.filter p := by
  have hpw : (l.filter p).Pairwise (fun a b => le a b = true) := by
    apply List.pairwise_of_forall_mem_list
    intro a ha b hb
    exact tied a b (List.of_mem_filter ha) (List.of_mem_filter hb)
  have hsub : List.Sublist (l.filter p) (l.mergeSort le) :=
    List.sublist_mergeSort htrans htotal hpw (List.filter_sublist l)
  have hidem : (l.filter p).filter p = l.filter p := by
    rw [List.filter_filter]
    simp only [Bool.and_self]
  have hsub2 : List.Sublist (l.filter p) ((l.mergeSort le).filter p) := by
    have h2 := hsub.filter p
    rwa [hidem] at h2
  have hlen : ((l.mergeSort le).filter p).length = (l.filter p).length :=
    ((List.mergeSort_perm l le).filter p).length_eq
  exact (hsub2.eq_of_length hlen.symm).symm

/-- The chunk sequence refuting C3: hints `5`, missing, `3` — not all
chunks carry the hint, yet the first does, so the code sorts. -/
def exC3 : List Chunk :=
  [{ hidden_created_at := some 5 }, { }, { hidden_created_at := some 3 }]

/-- C3 is false as stated: `exC3` does not carry the hint on every
chunk, so the claim demands the orderer return it unchanged, but the
output differs from the input (it gets sorted by hint with the missing
hint last). -/
theorem c3_orderer_counterexample :
    sort_chunks exC3 ≠ exC3 ∧
    exC3.all (fun c => hintTruthy c.hidden_created_at) = false := by
  constructor
  · intro h
    have hs : (exC3.mergeSort createdAtKeyLE).Pairwise
        (fun a b => createdAtKeyLE a b = true) :=
      List.sorted_mergeSort createdAtKeyLE_trans createdAtKeyLE_total exC3
    have heq : sort_chunks exC3 = exC3.mergeSort createdAtKeyLE := rfl
    rw [heq] at h
    rw [h] at hs
    revert hs
    decide
  · rfl

/-- C3 (amended): the empty sequence maps to itself; when the **first**
chunk's hint is not truthy the sequence is returned unchanged; and when
the first chunk's hint is truthy the result is the stable ascending
sort of the whole sequence by hint with missing hints ordered last —
sorted, a permutation of the input, and order-preserving on every
equal-hint class — regardless of whether later chunks carry hints. -/
theorem c3_orderer_amended :
    sort_chunks [] = [] ∧
    (∀ (c : Chunk) (rest : List Chunk),
      hintTruthy c.hidden_created_at = false →
        sort_chunks (c :: rest) = c :: rest) ∧
    (∀ (c : Chunk) (rest : List Chunk),
      hintTruthy c.hidden_created_at = true →
        (sort_chunks (c :: rest)).Pairwise
          (fun a b => createdAtKeyLE a b = true) ∧
        List.Perm (sort_chunks (c :: rest)) (c :: rest) ∧
        ∀ k : Option Nat,
          (sort_chunks (c :: rest)).filter
              (fun x => decide (x.hidden_created_at = k)) =
            (c :: rest).filter
              (fun x => decide (x.hidden_created_at = k))) := by
  refine ⟨rfl, ?_, ?_⟩
  · intro c rest h
    simp [sort_chunks, h]
  · intro c rest h
    have heq : sort_chunks (c :: rest) =
        (c :: rest).mergeSort createdAtKeyLE := by
      simp [sort_chunks, h]
    rw [heq]
    refine ⟨List.sorted_mergeSort createdAtKeyLE_trans createdAtKeyLE_total _,
      List.mergeSort_perm _ _, ?_⟩
    intro k
    apply mergeSort_filter_tied _ _ _ createdAtKeyLE_trans createdAtKeyLE_total
    intro a b ha hb
    have ha2 : a.hidden_created_at = k := of_decide_eq_true ha
    have hb2 : b.hidden_created_at = k := of_decide_eq_true hb
    unfold createdAtKeyLE
    rw [ha2, hb2]
    cases k <;> simp

/-- Witness for C3 at concrete inputs: a hint-less singleton is
unchanged, and a two-chunk fully-hinted sequence is permuted by the
orderer. -/
theorem c3_orderer_amended_witness :
    sort_chunks [({ } : Chunk)] = [({ } : Chunk)] ∧
    List.Perm
      (sort_chunks [{ hidden_created_at := some 5 },
        { hidden_created_at := some 3 }])
      [({ hidden_created_at := some 5 } : Chunk),
        { hidden_created_at := some 3 }] :=
  ⟨c3_orderer_amended.2.1 { } [] rfl,
    (c3_orderer_amended.2.2 { hidden_created_at := some 5 }
      [{ hidden_created_at := some 3 }] rfl).2.1⟩

/-! ## C1: the tool-call merger -/

theorem natLE_trans : ∀ a b c : Nat, natLE a b → natLE b c → natLE a c := by
  intro a b c h1 h2
  simp [natLE] at *
  omega

theorem natLE_total : ∀ a b : Nat, natLE a b || natLE b a := by
  intro a b
  simp [natLE]
  omega

theorem lookupAcc_setAcc (m : List (Nat × ToolAcc)) (i j : Nat) (v : ToolAcc) :
    lookupAcc (setAcc m i v) j = if i = j then some v else lookupAcc m j := by
  induction m with
  | nil => simp [setAcc, lookupAcc]
  | cons kv rest ih =>
    obtain ⟨k, w⟩ := kv
    by_cases hk : k = i
    · subst hk
      by_cases hj : k = j <;> simp [setAcc, lookupAcc, hj]
    · by_cases hj : k = j
      · subst hj
        have hij : ¬ i = k := fun h => hk h.symm
        simp [setAcc, lookupAcc, hk, hij]
      · simp [setAcc, lookupAcc, hk, hj, ih]

theorem mem_keys_setAcc (m : List (Nat × ToolAcc)) (i j : Nat) (v : ToolAcc) :
    j ∈ (setAcc m i v).map Prod.fst ↔ j = i ∨ j ∈ m.map Prod.fst := by
  induction m with
  | nil => simp [setAcc]
  | cons kv rest ih =>
    obtain ⟨k, w⟩ := kv
    by_cases hk : k = i
    · subst hk
      simp [setAcc]
    · simp [setAcc, hk, ih]
      tauto

theorem nodup_keys_setAcc (m : List (Nat × ToolAcc)) (i : Nat) (v : ToolAcc)
    (h : (m.map Prod.fst).Nodup) : ((setAcc m i v).map Prod.fst).Nodup := by
  induction m with
  | nil => simp [setAcc]
  | cons kv rest ih =>
    obtain ⟨k, w⟩ := kv
    simp only [List.map_cons, List.nodup_cons] at h
    by_cases hk : k = i
    · subst hk
      have hs : setAcc ((k, w) :: rest) k v = (k, v) :: rest := by
        simp [setAcc]
      rw [hs]
      simp only [List.map_cons, List.nodup_cons]
      exact ⟨h.1, h.2⟩
    · have hrest := ih h.2
      have hs : setAcc ((k, w) :: rest) i v = (k, w) :: setAcc rest i v := by
        simp [setAcc, hk]
      rw [hs]
      simp only [List.map_cons, List.nodup_cons]
      refine ⟨?_, hrest⟩
      intro hmem
      rw [mem_keys_setAcc] at hmem
      rcases hmem with h1 | h2
      · exact hk h1
      · exact h.1 h2

/-- The relevant tool-call delta entries carrying a given index, in
scan order. -/
def entriesAt (i : Nat) (entries : List (Option ToolCallDelta)) :
    List ToolCallDelta :=
  (relevantToolEntries entries).filter fun t => decide (t.index = i)

theorem lookupAcc_foldl_toolStep (entries : List (Option ToolCallDelta)) :
    ∀ (m : List (Nat × ToolAcc)) (i : Nat),
      lookupAcc (entries.foldl toolStep m) i =
        if entriesAt i entries = [] then lookupAcc m i
        else some ((entriesAt i entries).foldl applyToolEntry
          ((lookupAcc m i).getD {})) := by
  induction entries with
  | nil =>
    intro m i
    simp [entriesAt, relevantToolEntries]
  | cons tc rest ih =>
    intro m i
    match tc with
    | none =>
      have h1 : entriesAt i (none :: rest) = entriesAt i rest := by
        simp [entriesAt, relevantToolEntries]
      have h2 : (none :: rest).foldl toolStep m = rest.foldl toolStep m := rfl
      rw [h2, h1, ih]
    | some t =>
      by_cases hf : t.hasFunction
      · have h2 : ((some t) :: rest).foldl toolStep m =
            rest.foldl toolStep (setAcc m t.index
              (applyToolEntry ((lookupAcc m t.index).getD {}) t)) := by
          simp [List.foldl_cons, toolStep, hf]
        by_cases hi : t.index = i
        · subst hi
          have h1 : entriesAt t.index (some t :: rest) =
              t :: entriesAt t.index rest := by
            simp [entriesAt, relevantToolEntries, hf]
          rw [h2, h1, ih, lookupAcc_setAcc]
          simp only [if_pos rfl]
          cases hne : entriesAt t.index rest with
          | nil => simp
          | cons e es => simp
        · have h1 : entriesAt i (some t :: rest) = entriesAt i rest := by
            simp [entriesAt, relevantToolEntries, hf, hi]
          rw [h2, h1, ih, lookupAcc_setAcc]
          simp [hi]
      · have h1 : entriesAt i (some t :: rest) = entriesAt i rest := by
          simp [entriesAt, relevantToolEntries, hf]
        have h2 : ((some t) :: rest).foldl toolStep m = rest.foldl toolStep m := by
          simp [toolStep, hf]
        rw [h2, h1, ih]

theorem mem_keys_foldl_toolStep (entries : List (Option ToolCallDelta)) :
    ∀ (m : List (Nat × ToolAcc)) (i : Nat),
      i ∈ (entries.foldl toolStep m).map Prod.fst ↔
        i ∈ m.map Prod.fst ∨
          i ∈ (relevantToolEntries entries).map (fun t => t.index) := by
  induction entries with
  | nil =>
    intro m i
    simp [relevantToolEntries]
  | cons tc rest ih =>
    intro m i
    match tc with
    | none => simpa [relevantToolEntries] using ih m i
    | some t =>
      by_cases hf : t.hasFunction
      · have h2 : ((some t) :: rest).foldl toolStep m =
            rest.foldl toolStep (setAcc m t.index
              (applyToolEntry ((lookupAcc m t.index).getD {}) t)) := by
          simp [List.foldl_cons, toolStep, hf]
        rw [h2, ih, mem_keys_setAcc]
        simp [relevantToolEntries, hf]
        tauto
      · have h2 : ((some t) :: rest).foldl toolStep m = rest.foldl toolStep m := by
          simp [toolStep, hf]
        rw [h2, ih]
        simp [relevantToolEntries, hf]

theorem nodup_keys_foldl_toolStep (entries : List (Option ToolCallDelta)) :
    ∀ m, (m.map Prod.fst).Nodup →
      ((entries.foldl toolStep m).map Prod.fst).Nodup := by
  induction entries with
  | nil => intro m h; exact h
  | cons tc rest ih =>
    intro m h
    match tc with
    | none => exact ih m h
    | some t =>
      by_cases hf : t.hasFunction
      · have h2 : ((some t) :: rest).foldl toolStep m =
            rest.foldl toolStep (setAcc m t.index
              (applyToolEntry ((lookupAcc m t.index).getD {}) t)) := by
          simp [List.foldl_cons, toolStep, hf]
        rw [h2]
        exact ih _ (nodup_keys_setAcc m t.index _ h)
      · have h2 : ((some t) :: rest).foldl toolStep m = rest.foldl toolStep m := by
          simp [toolStep, hf]
        rw [h2]
        exact ih m h

theorem foldl_applyToolEntry_field (f : ToolCallDelta → Option String)
    (g : ToolAcc → Option String)
    (hg : ∀ a t, g (applyToolEntry a t) = if strTruthy (f t) then f t else g a) :
    ∀ (es : List ToolCallDelta) (a : ToolAcc),
      g (es.foldl applyToolEntry a) =
        match lastTruthy f es with
        | some v => some v
        | none => g a := by
  intro es
  induction es with
  | nil => intro a; rfl
  | cons t es ih =>
    intro a
    rw [List.foldl_cons, ih, hg]
    cases hl : lastTruthy f es with
    | some v => simp [lastTruthy, hl]
    | none =>
      by_cases ht : strTruthy (f t)
      · cases hft : f t with
        | none => rw [hft] at ht; exact absurd ht (by simp [strTruthy])
        | some s =>
          rw [hft] at ht
          simp [lastTruthy, hl, hft, ht]
      · simp [lastTruthy, hl, ht]

theorem foldl_applyToolEntry_arguments :
    ∀ (es : List ToolCallDelta) (a : ToolAcc),
      (es.foldl applyToolEntry a).arguments =
        a.arguments ++ truthyArguments es := by
  intro es
  induction es with
  | nil => intro a; simp [truthyArguments]
  | cons t es ih =>
    intro a
    rw [List.foldl_cons, ih]
    simp [applyToolEntry, truthyArguments, List.append_assoc]

theorem lastTruthy_ne_empty (f : ToolCallDelta → Option String) :
    ∀ (es : List ToolCallDelta) (v : String), lastTruthy f es = some v →
      v ≠ "" := by
  intro es
  induction es with
  | nil => intro v h; exact Option.noConfusion h
  | cons t es ih =>
    intro v h
    simp only [lastTruthy] at h
    cases hl : lastTruthy f es with
    | some w =>
      rw [hl] at h
      simp only [Option.some.injEq] at h
      exact h ▸ ih w hl
    | none =>
      rw [hl] at h
      by_cases ht : strTruthy (f t)
      · rw [if_pos ht] at h
        cases hft : f t with
        | none => rw [hft] at h; exact Option.noConfusion h
        | some s =>
          rw [hft] at h ht
          simp only [Option.some.injEq] at h
          subst h
          simpa [strTruthy] using ht
      · rw [if_neg ht] at h
        exact Option.noConfusion h

/-- C1: the tool-call merger is exactly the claim's description — one
tool call per distinct observed index for which both an id and a name
were observed (none otherwise), ordered ascending by index, with
arguments the in-order concatenation of that index's observed fragments
(defaulting to `"{}"` when none was observed) and type defaulting to
`"function"` when never set. -/
theorem c1_tool_call_merger (chunks : List Chunk) :
    get_combined_tool_content chunks =
      specToolContent (allToolCallEntries chunks) := by
  have hmatch_id : ∀ o : Option String,
      (match o with | some v => some v | none => none) = o := by
    intro o
    cases o <;> rfl
  simp only [get_combined_tool_content, toolContentOfEntries, specToolContent]
  set entries := allToolCallEntries chunks with hent
  set m := entries.foldl toolStep [] with hm
  have hkeys : (m.map Prod.fst).mergeSort natLE =
      ((relevantToolEntries entries).map (fun t => t.index)).dedup.mergeSort
        natLE := by
    apply @List.Perm.eq_of_sorted Nat (fun a b => natLE a b = true)
    · intro a b _ _ hab hba
      have h1 : a ≤ b := of_decide_eq_true hab
      have h2 : b ≤ a := of_decide_eq_true hba
      omega
    · exact List.sorted_mergeSort natLE_trans natLE_total _
    · exact List.sorted_mergeSort natLE_trans natLE_total _
    · have hnodup1 : (m.map Prod.fst).Nodup := by
        rw [hm]
        exact nodup_keys_foldl_toolStep entries [] (by simp)
      have hnodup2 :
          ((relevantToolEntries entries).map (fun t => t.index)).dedup.Nodup :=
        List.nodup_dedup _
      have hmm : ∀ i, i ∈ m.map Prod.fst ↔
          i ∈ ((relevantToolEntries entries).map (fun t => t.index)).dedup := by
        intro i
        rw [List.mem_dedup, hm, mem_keys_foldl_toolStep]
        simp
      have hperm : List.Perm (m.map Prod.fst)
          (((relevantToolEntries entries).map fun t => t.index).dedup) :=
        (List.perm_ext_iff_of_nodup hnodup1 hnodup2).2 hmm
      exact ((List.mergeSort_perm _ natLE).trans hperm).trans
        (List.mergeSort_perm _ natLE).symm
  rw [hkeys]
  apply List.filterMap_congr
  intro i hi
  have himem : i ∈ (relevantToolEntries entries).map (fun t => t.index) := by
    have h1 := List.mem_mergeSort.mp hi
    exact List.mem_dedup.mp h1
  have hne : entriesAt i entries ≠ [] := by
    rcases List.mem_map.mp himem with ⟨t, htmem, hti⟩
    intro hnil
    have hmem2 : t ∈ entriesAt i entries := by
      simp [entriesAt, List.mem_filter, htmem, hti]
    rw [hnil] at hmem2
    exact absurd hmem2 (List.not_mem_nil t)
  rw [hm, lookupAcc_foldl_toolStep entries [] i, if_neg hne]
  have hlook : (lookupAcc [] i).getD ({} : ToolAcc) = {} := rfl
  rw [hlook]
  show emitAcc ((entriesAt i entries).foldl applyToolEntry {}) =
    specToolCallAt (relevantToolEntries entries) i
  have hid : ((entriesAt i entries).foldl applyToolEntry {}).id =
      lastTruthy (fun t => t.id) (entriesAt i entries) := by
    rw [foldl_applyToolEntry_field (fun t => t.id) (fun a => a.id)
      (fun a t => rfl)]
    exact hmatch_id _
  have hname : ((entriesAt i entries).foldl applyToolEntry {}).name =
      lastTruthy (fun t => t.function.name) (entriesAt i entries) := by
    rw [foldl_applyToolEntry_field (fun t => t.function.name) (fun a => a.name)
      (fun a t => rfl)]
    exact hmatch_id _
  have htype : ((entriesAt i entries).foldl applyToolEntry {}).type =
      lastTruthy (fun t => t.type) (entriesAt i entries) := by
    rw [foldl_applyToolEntry_field (fun t => t.type) (fun a => a.type)
      (fun a t => rfl)]
    exact hmatch_id _
  have hargs : ((entriesAt i entries).foldl applyToolEntry {}).arguments =
      truthyArguments (entriesAt i entries) := by
    rw [foldl_applyToolEntry_arguments]
    rfl
  unfold emitAcc specToolCallAt
  have hE : List.filter (fun t => decide (t.index = i))
      (relevantToolEntries entries) = entriesAt i entries := rfl
  simp only [hE]
  rw [hid, hname, htype, hargs]
  cases hidv : lastTruthy (fun t => t.id) (entriesAt i entries) with
  | none => simp [strTruthy, hidv]
  | some idv =>
    cases hnmv : lastTruthy (fun t => t.function.name) (entriesAt i entries) with
    | none => simp [strTruthy, hidv, hnmv]
    | some nmv =>
      have hidne : idv ≠ "" := lastTruthy_ne_empty _ _ _ hidv
      have hnmne : nmv ≠ "" := lastTruthy_ne_empty _ _ _ hnmv
      cases htv : lastTruthy (fun t => t.type) (entriesAt i entries) with
      | none => simp [strTruthy, hidv, hnmv, htv, hidne, hnmne]
      | some tv =>
        have htvne : tv ≠ "" := lastTruthy_ne_empty _ _ _ htv
        simp [strTruthy, hidv, hnmv, htv, hidne, hnmne, htvne]

/-! ## C8: base64-correctness of the audio byte-concatenation -/

theorem b64Val_b64Char : ∀ n, n < 64 → b64Val (b64Char n) = some n := by
  decide

theorem b64Char_ne_pad : ∀ n, n < 64 → b64Char n ≠ '=' := by
  decide

theorem b64Val_lt : ∀ (c : Char) (s : Nat), b64Val c = some s → s < 64 := by
  intro c s h
  unfold b64Val at h
  split_ifs at h with h1 h2 h3 h4 h5 <;> simp at h <;> omega

theorem b64DecodeChars_lt : ∀ (l : List Char) (bs : List Nat),
    b64DecodeChars l = some bs → ∀ b ∈ bs, b < 256
  | [], bs, h, b, hb => by
    simp only [b64DecodeChars, Option.some.injEq] at h
    subst h
    simp at hb
  | [c1], bs, h, b, hb => by simp [b64DecodeChars] at h
  | [c1, c2], bs, h, b, hb => by simp [b64DecodeChars] at h
  | [c1, c2, c3], bs, h, b, hb => by simp [b64DecodeChars] at h
  | c1 :: c2 :: c3 :: c4 :: rest, bs, h, b, hb => by
    simp only [b64DecodeChars] at h
    cases hv1 : b64Val c1 with
    | none => rw [hv1] at h; simp at h
    | some s1 =>
      cases hv2 : b64Val c2 with
      | none => rw [hv1, hv2] at h; simp at h
      | some s2 =>
        rw [hv1, hv2] at h
        have hs1 := b64Val_lt c1 s1 hv1
        have hs2 := b64Val_lt c2 s2 hv2
        by_cases hc3 : c3 = '='
        · by_cases hc4 : c4 = '='
          · by_cases hrest : rest = []
            · simp [hc3, hc4, hrest] at h
              subst h
              simp only [List.mem_singleton] at hb
              omega
            · simp [hc3, hc4, hrest] at h
          · simp [hc3, hc4] at h
        · cases hv3 : b64Val c3 with
          | none => rw [hv3] at h; simp [hc3] at h
          | some s3 =>
            rw [hv3] at h
            have hs3 := b64Val_lt c3 s3 hv3
            by_cases hc4 : c4 = '='
            · by_cases hrest : rest = []
              · simp [hc3, hc4, hrest] at h
                subst h
                simp only [List.mem_cons, List.mem_singleton] at hb
                rcases hb with hb | hb
                · omega
                · rcases hb with hb | hb
                  · omega
                  · simp at hb
              · simp [hc3, hc4, hrest] at h
            · cases hv4 : b64Val c4 with
              | none => rw [hv4] at h; simp [hc3, hc4] at h
              | some s4 =>
                cases htail : b64DecodeChars rest with
                | none => rw [hv4, htail] at h; simp [hc3, hc4] at h
                | some tail =>
                  rw [hv4, htail] at h
                  have hs4 := b64Val_lt c4 s4 hv4
                  simp [hc3, hc4] at h
                  subst h
                  simp only [List.mem_cons] at hb
                  rcases hb with hb | hb
                  · omega
                  · rcases hb with hb | hb
                    · omega
                    · rcases hb with hb | hb
                      · omega
                      · exact b64DecodeChars_lt rest tail htail b hb

theorem b64_roundtrip : ∀ (bs : List Nat), (∀ b ∈ bs, b < 256) →
    b64DecodeChars (b64EncodeBytes bs) = some bs
  | [], _ => rfl
  | [b1], h => by
    have hb1 : b1 < 256 := h b1 (by simp)
    simp only [b64EncodeBytes, b64DecodeChars]
    rw [b64Val_b64Char (b1 / 4) (by omega),
      b64Val_b64Char (b1 % 4 * 16) (by omega)]
    simp
    omega
  | [b1, b2], h => by
    have hb1 : b1 < 256 := h b1 (by simp)
    have hb2 : b2 < 256 := h b2 (by simp)
    have h3 := b64Char_ne_pad (b2 % 16 * 4) (by omega)
    simp only [b64EncodeBytes, b64DecodeChars]
    rw [b64Val_b64Char (b1 / 4) (by omega),
      b64Val_b64Char (b1 % 4 * 16 + b2 / 16) (by omega),
      b64Val_b64Char (b2 % 16 * 4) (by omega)]
    simp [h3]
    constructor
    · omega
    · omega
  | b1 :: b2 :: b3 :: rest, h => by
    have hb1 : b1 < 256 := h b1 (by simp)
    have hb2 : b2 < 256 := h b2 (by simp)
    have hb3 : b3 < 256 := h b3 (by simp)
    have ih := b64_roundtrip rest (fun b hb => h b (by simp [hb]))
    have h3 := b64Char_ne_pad (b2 % 16 * 4 + b3 / 64) (by omega)
    have h4 := b64Char_ne_pad (b3 % 64) (by omega)
    simp only [b64EncodeBytes, b64DecodeChars]
    rw [b64Val_b64Char (b1 / 4) (by omega),
      b64Val_b64Char (b1 % 4 * 16 + b2 / 16) (by omega),
      b64Val_b64Char (b2 % 16 * 4 + b3 / 64) (by omega),
      b64Val_b64Char (b3 % 64) (by omega), ih]
    simp [h3, h4]
    refine ⟨by omega, by omega, by omega⟩

theorem mapM_b64decode_mem : ∀ (frags : List String) (bss : List (List Nat)),
    frags.mapM b64decode = some bss → ∀ bs ∈ bss, ∃ s, b64decode s = some bs := by
  intro frags
  induction frags with
  | nil =>
    intro bss h bs hbs
    simp only [List.mapM_nil, pure, Option.some.injEq] at h
    subst h
    simp at hbs
  | cons s rest ih =>
    intro bss h bs hbs
    rw [List.mapM_cons] at h
    cases hd : b64decode s with
    | none => rw [hd] at h; simp at h
    | some b0 =>
      rw [hd] at h
      cases hr : rest.mapM b64decode with
      | none => rw [hr] at h; simp at h
      | some bss' =>
        rw [hr] at h
        simp at h
        subst h
        rcases List.mem_cons.mp hbs with hbs | hbs
        · exact ⟨s, hbs ▸ hd⟩
        · exact ih bss' hr bs hbs

/-- C8: for every list of fragments that decode as base64, the audio
byte-concatenation succeeds, and decoding its result yields exactly the
concatenation of the decoded fragment bytes — including fragments whose
byte lengths are not multiples of the 3-byte base64 block — and the
empty fragment list yields the empty string rather than an error. -/
theorem c8_base64_concatenation :
    (∀ (frags : List String) (bss : List (List Nat)),
      frags.mapM b64decode = some bss →
        concatenate_base64_list frags = some (b64encode bss.flatten) ∧
        b64decode (b64encode bss.flatten) = some bss.flatten) ∧
    concatenate_base64_list [] = some "" := by
  constructor
  · intro frags bss h
    constructor
    · unfold concatenate_base64_list
      rw [h]
      rfl
    · show b64DecodeChars (b64encode bss.flatten).data = some bss.flatten
      have hdata : (b64encode bss.flatten).data = b64EncodeBytes bss.flatten :=
        rfl
      rw [hdata]
      apply b64_roundtrip
      intro b hb
      rw [List.mem_flatten] at hb
      rcases hb with ⟨bs1, hbs1, hb1⟩
      rcases mapM_b64decode_mem frags bss h bs1 hbs1 with ⟨s, hs⟩
      exact b64DecodeChars_lt s.data bs1 hs b hb1
  · rfl

/-- Witness for C8 at a concrete input: two fragments each encoding the
single byte `77`, whose payload lengths are not multiples of the base64
block size. -/
theorem c8_base64_concatenation_witness :
    concatenate_base64_list ["TQ==", "TQ=="] =
      some (b64encode ([[77], [77]] : List (List Nat)).flatten) ∧
    b64decode (b64encode ([[77], [77]] : List (List Nat)).flatten) =
      some ([[77], [77]] : List (List Nat)).flatten :=
  c8_base64_concatenation.1 ["TQ==", "TQ=="] [[77], [77]] rfl

end LitellmStream
